import Mathlib

/-!
# Aspera block codec, hash/ID derivation and validation gate

A shallow embedding of `pkg/block/block.go`.  Go machine integers are modelled
as `Nat`/`Int` with the wrap-around of every conversion written out; byte
buffers are lists of `Fin 256`; the pointer receiver that `Validate` mutates
is modelled by returning the block's state after the call.
-/

set_option linter.unusedVariables false
set_option linter.dupNamespace false

namespace Aspera

/-! ## Bytes and integer conversions -/

/-- One Go `byte` (`uint8`). -/
abbrev Byte := Fin 256

/-- Go conversion `byte(v)` of an unsigned integer: keeps the low 8 bits. -/
def byte (v : Nat) : Byte := ⟨v % 256, Nat.mod_lt v (by decide)⟩

/-- Go conversion `uint32(v)` of a signed integer: the low 32 bits, read unsigned. -/
def uint32 (v : Int) : Nat := (v % 4294967296).toNat

/-- Go conversion `uint64(v)` of a signed integer: the low 64 bits, read unsigned. -/
def uint64 (v : Int) : Nat := (v % 18446744073709551616).toNat

/-- Go conversion `int32(v)` of an `int64`: the low 32 bits, read as two's complement. -/
def int32 (v : Int) : Int := (v + 2147483648) % 4294967296 - 2147483648

/-- Go `binary.LittleEndian.PutUint32`: `b[i] = byte(v >> (8*i))` for `i = 0..3`. -/
def PutUint32 (v : Nat) : List Byte :=
  [byte v, byte (v >>> 8), byte (v >>> 16), byte (v >>> 24)]

/-- Go `binary.LittleEndian.PutUint64`: `b[i] = byte(v >> (8*i))` for `i = 0..7`. -/
def PutUint64 (v : Nat) : List Byte :=
  [byte v, byte (v >>> 8), byte (v >>> 16), byte (v >>> 24),
   byte (v >>> 32), byte (v >>> 40), byte (v >>> 48), byte (v >>> 56)]

/-! ## Data model -/

/-- Modelled from the spec: the type `jutils.HexSlice` of package `pkg/json` is not part of
the sources at hand.  The spec calls these fields raw byte buffers rendered as hexadecimal
strings, and `ToBytes` takes `len` of one and compares it with `nil`, so it is a byte slice:
`none` is the `nil` slice, `some bs` a non-nil slice holding `bs`. -/
abbrev HexSlice := Option (List Byte)

/-- Bytes held by a slice; the `nil` slice holds none. -/
def HexSlice.bytes : HexSlice → List Byte
  | none => []
  | some bs => bs

/-- Go `len(s)`. -/
def HexSlice.len (s : HexSlice) : Nat := s.bytes.length

/-- The `oneBurst` constant. -/
def oneBurst : Int := 100000000

/-- The `Block` struct.  `Tx` stands for the element type `*t.Transaction` of the
`Transactions` slice, whose declaration lives in another package; this file only ever takes
the length of that slice. -/
structure Block (Tx : Type) where
  PayloadLength : Nat
  TotalAmountNQT : Int
  GenerationSignature : HexSlice
  GeneratorPublicKey : HexSlice
  PayloadHash : HexSlice
  BlockSignature : HexSlice
  Transactions : List Tx
  Version : Int
  Nonce : Nat
  TotalFeeNQT : Int
  BlockATs : HexSlice
  PreviousBlock : Nat
  Timestamp : Nat
  Block : Nat
  Height : Int
  PreviousBlockHash : HexSlice
  isValid : Bool

/-- The ranges of the Go field types: `uint32`, `int64`, `int32`, `uint64`. -/
def Block.InRange {Tx : Type} (b : Aspera.Block Tx) : Prop :=
  b.PayloadLength < 4294967296 ∧
  (-9223372036854775808 ≤ b.TotalAmountNQT ∧ b.TotalAmountNQT < 9223372036854775808) ∧
  (-2147483648 ≤ b.Version ∧ b.Version < 2147483648) ∧
  b.Nonce < 18446744073709551616 ∧
  (-9223372036854775808 ≤ b.TotalFeeNQT ∧ b.TotalFeeNQT < 9223372036854775808) ∧
  b.PreviousBlock < 18446744073709551616 ∧
  b.Timestamp < 4294967296 ∧
  b.Block < 18446744073709551616 ∧
  (-2147483648 ≤ b.Height ∧ b.Height < 2147483648)

/-- The declared widths of the fixed-size fields: three 32-byte values, a 32-byte previous
block hash when `Version > 1`, and a 64-byte signature. -/
def Block.WellSized {Tx : Type} (b : Aspera.Block Tx) : Prop :=
  b.PayloadHash.len = 32 ∧ b.GeneratorPublicKey.len = 32 ∧ b.GenerationSignature.len = 32 ∧
  (b.Version > 1 → b.PreviousBlockHash.len = 32) ∧ b.BlockSignature.len = 64

instance {Tx : Type} (b : Block Tx) : Decidable b.InRange := by
  unfold Block.InRange; infer_instance

instance {Tx : Type} (b : Block Tx) : Decidable b.WellSized := by
  unfold Block.WellSized; infer_instance

/-! ## `encoding/binary` -/

/-- The values `ToBytes` hands to `binary.Write`, by their Go type. -/
inductive Data where
  | int32 (v : Int)
  | uint32 (v : Nat)
  | int64 (v : Int)
  | uint64 (v : Nat)
  | hexSlice (s : HexSlice)

/-- Go `binary.Write(w, binary.LittleEndian, data)` on a `bytes.Buffer`, returning the buffer
after the call.  Fixed-width integers take the fast path (`PutUint32`/`PutUint64` of the
value's bits).  A named byte-slice type takes the reflective path: its size is
`len * sizeof(uint8)`, which is never negative, and its elements are written in order.
`bytes.Buffer.Write` reports no error, so no case fails. -/
def binaryWrite (w : List Byte) : Data → Except String (List Byte)
  | .int32 v => .ok (w ++ PutUint32 (uint32 v))
  | .uint32 v => .ok (w ++ PutUint32 v)
  | .int64 v => .ok (w ++ PutUint64 (uint64 v))
  | .uint64 v => .ok (w ++ PutUint64 v)
  | .hexSlice s => .ok (w ++ s.bytes)

/-! ## `Block` methods -/

/-- The local `bsCap` that `ToBytes` computes (and never reads). -/
def bsCap {Tx : Type} (b : Block Tx) : Nat :=
  (4 + 4 + 8 + 4 + 4 + 32 + 32 + (32 + 32) + 8 + 64)
    + (if b.Version < 3 then 4 + 4 else 8 + 8) + b.BlockATs.len

/-- The method `Block.ToBytes`: `.error e` is the return `nil, e`, and `.ok bs` the return
`bs, nil`. -/
def ToBytes {Tx : Type} (b : Block Tx) : Except String (List Byte) := do
  let w : List Byte := []
  let w ← binaryWrite w (.int32 b.Version)
  let w ← binaryWrite w (.uint32 b.Timestamp)
  let w ← binaryWrite w (.uint64 b.PreviousBlock)
  let w ← binaryWrite w (.uint32 (uint32 b.Transactions.length))
  let w ←
    if b.Version < 3 then do
      let totalAmountQNT := int32 (Int.tdiv b.TotalAmountNQT oneBurst)
      let w ← binaryWrite w (.int32 totalAmountQNT)
      let totalFeeNQT := int32 (Int.tdiv b.TotalFeeNQT oneBurst)
      binaryWrite w (.int32 totalFeeNQT)
    else do
      let w ← binaryWrite w (.int64 b.TotalAmountNQT)
      binaryWrite w (.int64 b.TotalFeeNQT)
  let w ← binaryWrite w (.uint32 b.PayloadLength)
  let w ← binaryWrite w (.hexSlice b.PayloadHash)
  let w ← binaryWrite w (.hexSlice b.GeneratorPublicKey)
  let w ← binaryWrite w (.hexSlice b.GenerationSignature)
  let w ← if b.Version > 1 then binaryWrite w (.hexSlice b.PreviousBlockHash) else pure w
  let w ← binaryWrite w (.uint64 b.Nonce)
  let w ← if b.BlockATs ≠ none then binaryWrite w (.hexSlice b.BlockATs) else pure w
  let w ← binaryWrite w (.hexSlice b.BlockSignature)
  return w

/-- A `[32]byte` array. -/
abbrev Digest := { bs : List Byte // bs.length = 32 }

/-- Indexing `hash[i]` into a `[32]byte`. -/
def Digest.at (hash : Digest) (i : Fin 32) : Byte := hash.val.get (i.cast hash.property.symm)

/-- The method `Block.CalculateHash`; `sha256` stands for `crypto/sha256.Sum256`. -/
def CalculateHash {Tx : Type} (sha256 : List Byte → Digest) (b : Block Tx) :
    Except String Digest :=
  match ToBytes b with
  | .ok bs => .ok (sha256 bs)
  | .error err => .error err

/-- Go `(*big.Int).SetBytes` on a fresh integer: the buffer read as a big-endian unsigned
integer. -/
def SetBytes (buf : List Byte) : Nat := buf.foldl (fun acc x => acc * 256 + x.val) 0

/-- Go `(*big.Int).Uint64` of a non-negative integer: its low 64 bits. -/
def Uint64 (x : Nat) : Nat := x % 18446744073709551616

/-- The ID derivation in the success branch of `CalculateID`. -/
def idOfHash (hash : Digest) : Nat :=
  Uint64 (SetBytes [hash.at 7, hash.at 6, hash.at 5, hash.at 4,
                    hash.at 3, hash.at 2, hash.at 1, hash.at 0])

/-- The method `Block.CalculateID`: the returned `uint64` paired with the returned error
(`none` is `nil`). -/
def CalculateID {Tx : Type} (sha256 : List Byte → Digest) (b : Block Tx) :
    Nat × Option String :=
  match CalculateHash sha256 b with
  | .ok hash => (idOfHash hash, none)
  | .error err => (0, some err)

/-- The method `Block.toError`: the returned error (`none` is `nil`) and the block after
the call.  `marshal` stands for `json.Marshal` on a block, whose outcome depends on the
marshalling methods of types declared in other packages. -/
def toError {Tx : Type} (marshal : Block Tx → Except String String) (b : Block Tx)
    (message : String) : Option String × Block Tx :=
  let b := { b with isValid := false }
  match marshal b with
  | .ok v => (some (message ++ " << " ++ v), b)
  | .error _ => (none, b)

/-- The method `Block.Validate`: the returned error (`none` is `nil`) and the block after
the call; `previous` is the pointer argument, `none` when `nil`. -/
def Validate {Tx : Type} (marshal : Block Tx → Except String String) (b : Block Tx)
    (previous : Option (Block Tx)) : Option String × Block Tx :=
  if b.Version ≠ 3 then
    toError marshal b "invalid block version"
  else
    let b := { b with isValid := true }
    (none, b)

/-- The method `Block.IsValid`: the returned flag and the block after the call. -/
def IsValid {Tx : Type} (b : Block Tx) : Bool × Block Tx := (b.isValid, b)

/-! ## Reference encodings used to state the claims -/

/-- The `k`-byte little-endian representation of `n`: byte `i` is digit `i` of `n` in base
256. -/
def leBytes (k n : Nat) : List Byte := (List.range k).map (fun i => byte (n / 256 ^ i))

/-- The unsigned integer a byte sequence denotes when read little-endian. -/
def leValue : List Byte → Nat
  | [] => 0
  | x :: xs => x.val + 256 * leValue xs

/-- The `k`-byte little-endian two's-complement representation of a signed integer. -/
def leBytesInt (k : Nat) (v : Int) : List Byte := leBytes k (v % (256 : Int) ^ k).toNat

/-- The signed integer that `k` bytes denote when read as little-endian two's complement. -/
def leValueInt (k : Nat) (bs : List Byte) : Int :=
  if leValue bs < 256 ^ k / 2 then (leValue bs : Int) else (leValue bs : Int) - (256 : Int) ^ k

/-- Quotient of an integer by a positive natural number, rounded toward zero. -/
def quotTowardZero (x : Int) (d : Nat) : Int :=
  if 0 ≤ x then ((x.natAbs / d : Nat) : Int) else -((x.natAbs / d : Nat) : Int)

/-- The value in `[-2^31, 2^31)` that has the same low 32 bits as `q`. -/
def wrapInt32 (q : Int) : Int :=
  if q % 4294967296 < 2147483648 then q % 4294967296 else q % 4294967296 - 4294967296

/-- The legacy narrowing `truncate_to_int32(x / 100000000)` of an amount. -/
def narrowAmount (x : Int) : Int := wrapInt32 (quotTowardZero x 100000000)

/-- The closed form of the bytes `ToBytes` accumulates, in terms of the `encoding/binary`
primitives, written as a concatenation in the order of the writes. -/
def wireBytes {Tx : Type} (b : Block Tx) : List Byte :=
  PutUint32 (uint32 b.Version) ++ PutUint32 b.Timestamp ++ PutUint64 b.PreviousBlock ++
  PutUint32 (uint32 b.Transactions.length) ++
  (if b.Version < 3 then
    PutUint32 (uint32 (int32 (Int.tdiv b.TotalAmountNQT oneBurst))) ++
      PutUint32 (uint32 (int32 (Int.tdiv b.TotalFeeNQT oneBurst)))
   else PutUint64 (uint64 b.TotalAmountNQT) ++ PutUint64 (uint64 b.TotalFeeNQT)) ++
  PutUint32 b.PayloadLength ++ b.PayloadHash.bytes ++ b.GeneratorPublicKey.bytes ++
  b.GenerationSignature.bytes ++
  (if b.Version > 1 then b.PreviousBlockHash.bytes else []) ++
  PutUint64 b.Nonce ++ b.BlockATs.bytes ++ b.BlockSignature.bytes

/-- The layout the specification gives for the encoding: the fields in wire order, integers
little-endian, amounts narrowed to 4 bytes each below version 3 and 8 bytes each from
version 3 on, the previous block hash only above version 1, `BlockATs` verbatim. -/
def specLayout {Tx : Type} (b : Block Tx) : List Byte :=
  leBytesInt 4 b.Version ++ leBytes 4 b.Timestamp ++ leBytes 8 b.PreviousBlock ++
  leBytes 4 b.Transactions.length ++
  (if b.Version < 3 then
    leBytesInt 4 (narrowAmount b.TotalAmountNQT) ++ leBytesInt 4 (narrowAmount b.TotalFeeNQT)
   else leBytesInt 8 b.TotalAmountNQT ++ leBytesInt 8 b.TotalFeeNQT) ++
  leBytes 4 b.PayloadLength ++ b.PayloadHash.bytes ++ b.GeneratorPublicKey.bytes ++
  b.GenerationSignature.bytes ++
  (if b.Version > 1 then b.PreviousBlockHash.bytes else []) ++
  leBytes 8 b.Nonce ++ b.BlockATs.bytes ++ b.BlockSignature.bytes

/-- The `n` bytes of `out` that start at offset `off`. -/
def slice (out : List Byte) (off n : Nat) : List Byte := (out.drop off).take n

/-- The amount/fee region of the layout. -/
def amountFeeRegion {Tx : Type} (b : Block Tx) : List Byte :=
  if b.Version < 3 then
    leBytesInt 4 (narrowAmount b.TotalAmountNQT) ++ leBytesInt 4 (narrowAmount b.TotalFeeNQT)
  else leBytesInt 8 b.TotalAmountNQT ++ leBytesInt 8 b.TotalFeeNQT

/-- The previous-block-hash region of the layout. -/
def prevHashRegion {Tx : Type} (b : Block Tx) : List Byte :=
  if b.Version > 1 then b.PreviousBlockHash.bytes else []

/-! ## Sample blocks -/

/-- A non-nil byte slice of `n` copies of the byte `x`. -/
def filled (n x : Nat) : HexSlice := some (List.replicate n (byte x))

/-- A version-3 block with every fixed-size field at its declared width. -/
def blockV3 : Block Nat :=
  { PayloadLength := 352
    TotalAmountNQT := 250000000
    GenerationSignature := filled 32 17
    GeneratorPublicKey := filled 32 34
    PayloadHash := filled 32 51
    BlockSignature := filled 64 68
    Transactions := [7, 8]
    Version := 3
    Nonce := 123456789
    TotalFeeNQT := 200000000
    BlockATs := some [byte 1, byte 2, byte 3]
    PreviousBlock := 9876543210
    Timestamp := 1000
    Block := 42
    Height := 100
    PreviousBlockHash := filled 32 85
    isValid := false }

/-- A version-2 block with every fixed-size field at its declared width. -/
def blockV2 : Block Nat :=
  { blockV3 with Version := 2, TotalAmountNQT := -150000000 }

/-- A version-1 block with every fixed-size field at its declared width and no previous
block hash. -/
def blockV1 : Block Nat :=
  { blockV3 with Version := 1, PreviousBlockHash := none }

/-- A version-3 block whose `PayloadHash` holds 31 bytes instead of 32. -/
def blockShortHash : Block Nat :=
  { blockV3 with PayloadHash := filled 31 51 }

/-- The ID derivation in the specification's words: the digest's first 8 bytes read as a
little-endian unsigned integer. -/
def specDeriveID (hash : Digest) : Nat := leValue (hash.val.take 8)

/-- The digest made of the 32 sequential bytes `0x00, 0x01, ..., 0x1F`. -/
def seqDigest : Digest := ⟨(List.range 32).map byte, by decide⟩

/-- A digest with the same first 8 bytes as `seqDigest` and 24 bytes `0xFF` after them. -/
def seqDigestFF : Digest := ⟨(List.range 8).map byte ++ List.replicate 24 (byte 255), by decide⟩

/-- A `json.Marshal` outcome that produces a snapshot for every block. -/
def marshalSnapshot : Block Nat → Except String String :=
  fun b => .ok (if b.isValid then "valid block" else "invalid block")

/-- The block `blockV3` with other values in the fields that are not written to the wire:
height, block id, validity flag and the transactions themselves (still two of them). -/
def blockV3Other : Block Nat :=
  { blockV3 with Height := 7, Block := 99, isValid := true, Transactions := [100, 200] }

/-- A digest function used to instantiate `sha256` in examples: the first 32 bytes of the
input, padded with zero bytes. -/
def truncDigest (bs : List Byte) : Digest :=
  ⟨(bs ++ List.replicate 32 (byte 0)).take 32, by simp⟩

/-- The call `b.Validate(previous)` seen from the caller.  `b` and `previous` are pointers
into a store of blocks (`previous = none` is `nil`, and nothing keeps `previous` from being
`b` itself); the method runs on the block `b` points to, and its writes land in that
block. -/
def ValidateCall {Tx : Type} (marshal : Block Tx → Except String String)
    (store : Nat → Block Tx) (b : Nat) (previous : Option Nat) :
    Option String × (Nat → Block Tx) :=
  ((Validate marshal (store b) (previous.map store)).1,
    fun a => if a = b then (Validate marshal (store b) (previous.map store)).2 else store a)

/-- A store that holds `blockV1` at address 0 and `blockV3` everywhere else. -/
def sampleStore : Nat → Block Nat := fun a => if a = 0 then blockV1 else blockV3

/-! ## Lemmas on the encodings -/

theorem leBytes_length (k n : Nat) : (leBytes k n).length = k := by
  simp [leBytes]

theorem leBytes_succ (k n : Nat) : leBytes (k + 1) n = byte n :: leBytes k (n / 256) := by
  simp only [leBytes, List.range_succ_eq_map, List.map_cons, List.map_map, pow_zero,
    Nat.div_one, List.cons.injEq, true_and]
  apply List.map_congr_left
  intro i _
  simp only [Function.comp, pow_succ, Nat.div_div_eq_div_mul]
  rw [Nat.mul_comm]

/-- Reading back a little-endian representation gives the value modulo `256 ^ k`. -/
theorem leValue_leBytes (k : Nat) : ∀ n : Nat, leValue (leBytes k n) = n % 256 ^ k := by
  induction k with
  | zero => intro n; simp [leBytes, leValue, Nat.mod_one]
  | succ k ih =>
    intro n
    rw [leBytes_succ, leValue, ih, pow_succ, Nat.mul_comm (256 ^ k) 256, Nat.mod_mul]
    simp [byte]

theorem PutUint32_eq_leBytes (v : Nat) : PutUint32 v = leBytes 4 v := by
  simp [PutUint32, leBytes, List.range_succ, Nat.shiftRight_eq_div_pow]

theorem PutUint64_eq_leBytes (v : Nat) : PutUint64 v = leBytes 8 v := by
  simp [PutUint64, leBytes, List.range_succ, Nat.shiftRight_eq_div_pow]

theorem leBytes_mod (k n : Nat) : leBytes k (n % 256 ^ k) = leBytes k n := by
  simp only [leBytes]
  apply List.map_congr_left
  intro i hi
  have hik : i < k := List.mem_range.mp hi
  obtain ⟨j, rfl⟩ : ∃ j, k = i + (j + 1) := ⟨k - i - 1, by omega⟩
  simp only [byte, Fin.mk.injEq]
  rw [pow_add, Nat.mod_mul_right_div_self, pow_succ, Nat.mod_mul_left_mod]

theorem leBytes_uint32 (v : Int) : leBytes 4 (uint32 v) = leBytesInt 4 v := rfl

theorem leBytes_uint64 (v : Int) : leBytes 8 (uint64 v) = leBytesInt 8 v := rfl

theorem leBytes_uint32_natCast (n : Nat) : leBytes 4 (uint32 (n : Int)) = leBytes 4 n := by
  rw [← leBytes_mod 4 n]
  congr 1

theorem leBytesInt_natCast (n : Nat) : leBytesInt 4 (n : Int) = leBytes 4 n :=
  leBytes_uint32_natCast n

theorem tdiv_oneBurst (x : Int) : Int.tdiv x oneBurst = quotTowardZero x 100000000 := by
  unfold quotTowardZero oneBurst
  rcases Int.lt_or_le x 0 with h | h
  · obtain ⟨n, rfl⟩ : ∃ n : Nat, x = -(n : Int) := ⟨x.natAbs, by omega⟩
    rw [if_neg (by omega), Int.neg_tdiv, Int.natAbs_neg, Int.natAbs_ofNat]
    rfl
  · obtain ⟨n, rfl⟩ : ∃ n : Nat, x = (n : Int) := ⟨x.natAbs, by omega⟩
    rw [if_pos h, Int.natAbs_ofNat]
    rfl

theorem int32_eq_wrapInt32 (q : Int) : int32 q = wrapInt32 q := by
  unfold int32 wrapInt32
  split_ifs <;> omega

theorem int32_tdiv_oneBurst (x : Int) : int32 (Int.tdiv x oneBurst) = narrowAmount x := by
  rw [tdiv_oneBurst, int32_eq_wrapInt32]; rfl

/-- Every `binary.Write` in `ToBytes` succeeds, so the method returns the accumulated
buffer. -/
theorem ToBytes_eq_wireBytes {Tx : Type} (b : Block Tx) : ToBytes b = .ok (wireBytes b) := by
  unfold ToBytes wireBytes
  by_cases h3 : b.Version < 3 <;> by_cases h1 : b.Version > 1 <;>
    cases hats : b.BlockATs <;>
    simp [binaryWrite, bind, Except.bind, pure, Except.pure, h3, h1, HexSlice.bytes]

theorem wireBytes_eq_specLayout {Tx : Type} (b : Block Tx) : wireBytes b = specLayout b := by
  unfold wireBytes specLayout
  simp only [PutUint32_eq_leBytes, PutUint64_eq_leBytes, int32_tdiv_oneBurst,
    leBytes_uint32, leBytes_uint64, leBytesInt_natCast]

theorem PutUint32_length (v : Nat) : (PutUint32 v).length = 4 := rfl

theorem PutUint64_length (v : Nat) : (PutUint64 v).length = 8 := rfl

theorem filled_len (n x : Nat) : (filled n x).len = n := by
  simp [filled, HexSlice.len, HexSlice.bytes]

/-- Length of the buffer `ToBytes` accumulates, for arbitrary field lengths. -/
theorem wireBytes_length {Tx : Type} (b : Block Tx) :
    (wireBytes b).length =
      20 + (if b.Version < 3 then 8 else 16) + 4 + b.PayloadHash.len +
        b.GeneratorPublicKey.len + b.GenerationSignature.len +
        (if b.Version > 1 then b.PreviousBlockHash.len else 0) + 8 + b.BlockATs.len +
        b.BlockSignature.len := by
  unfold wireBytes
  simp only [List.length_append, PutUint32_length, PutUint64_length, HexSlice.len]
  split_ifs <;> simp only [List.length_append, PutUint32_length, PutUint64_length,
    List.length_nil]

theorem ToBytes_eq {Tx : Type} (b : Block Tx) : ToBytes b = .ok (specLayout b) := by
  rw [ToBytes_eq_wireBytes, wireBytes_eq_specLayout]

theorem specLayout_length {Tx : Type} (b : Block Tx) :
    (specLayout b).length =
      20 + (if b.Version < 3 then 8 else 16) + 4 + b.PayloadHash.len +
        b.GeneratorPublicKey.len + b.GenerationSignature.len +
        (if b.Version > 1 then b.PreviousBlockHash.len else 0) + 8 + b.BlockATs.len +
        b.BlockSignature.len := by
  rw [← wireBytes_eq_specLayout, wireBytes_length]

theorem leBytesInt_length (k : Nat) (v : Int) : (leBytesInt k v).length = k :=
  leBytes_length k _

theorem slice_append (pre mid rest : List Byte) (n k : Nat) (hn : pre.length = n)
    (hk : mid.length = k) : slice (pre ++ (mid ++ rest)) n k = mid := by
  subst hn hk
  simp [slice]

theorem wrapInt32_wrapInt32 (q : Int) : wrapInt32 (wrapInt32 q) = wrapInt32 q := by
  unfold wrapInt32
  split_ifs <;> omega

theorem wrapInt32_of_inRange (q : Int) (h : -2147483648 ≤ q ∧ q < 2147483648) :
    wrapInt32 q = q := by
  unfold wrapInt32
  split_ifs <;> omega

/-- Reading four bytes back as two's complement undoes the signed encoding up to wrapping. -/
theorem leValueInt_leBytesInt (v : Int) : leValueInt 4 (leBytesInt 4 v) = wrapInt32 v := by
  unfold leValueInt leBytesInt wrapInt32
  rw [leValue_leBytes]
  norm_num
  have h0 : 0 ≤ v % 4294967296 := Int.emod_nonneg _ (by decide)
  have h1 : v % 4294967296 < 4294967296 := Int.emod_lt_of_pos _ (by decide)
  have hc : (((v % 4294967296).toNat % 4294967296 : Nat) : Int) = v % 4294967296 := by omega
  split_ifs <;> omega

theorem specLayout_legacy {Tx : Type} (b : Block Tx) (hv : b.Version < 3) :
    ∃ rest, specLayout b =
      (leBytesInt 4 b.Version ++ leBytes 4 b.Timestamp ++ leBytes 8 b.PreviousBlock ++
        leBytes 4 b.Transactions.length) ++
      (leBytesInt 4 (narrowAmount b.TotalAmountNQT) ++
        (leBytesInt 4 (narrowAmount b.TotalFeeNQT) ++ rest)) := by
  refine ⟨leBytes 4 b.PayloadLength ++ b.PayloadHash.bytes ++ b.GeneratorPublicKey.bytes ++
    b.GenerationSignature.bytes ++ (if b.Version > 1 then b.PreviousBlockHash.bytes else []) ++
    leBytes 8 b.Nonce ++ b.BlockATs.bytes ++ b.BlockSignature.bytes, ?_⟩
  simp only [specLayout, if_pos hv, List.append_assoc]

theorem exists_eight_cons (l : List Byte) (h : 8 ≤ l.length) :
    ∃ a0 a1 a2 a3 a4 a5 a6 a7 rest, l = a0 :: a1 :: a2 :: a3 :: a4 :: a5 :: a6 :: a7 :: rest := by
  rcases l with _ | ⟨a0, _ | ⟨a1, _ | ⟨a2, _ | ⟨a3, _ | ⟨a4, _ | ⟨a5, _ | ⟨a6, _ | ⟨a7, rest⟩⟩⟩⟩⟩⟩⟩⟩
  all_goals first | exact ⟨_, _, _, _, _, _, _, _, _, rfl⟩ | simp at h

/-- The derivation of `CalculateID` reads the first 8 bytes of the digest little-endian. -/
theorem idOfHash_eq_leValue (hash : Digest) : idOfHash hash = leValue (hash.val.take 8) := by
  obtain ⟨l, hl⟩ := hash
  obtain ⟨a0, a1, a2, a3, a4, a5, a6, a7, rest, rfl⟩ := exists_eight_cons l (by omega)
  have e0 : Digest.at ⟨_, hl⟩ 0 = a0 := rfl
  have e1 : Digest.at ⟨_, hl⟩ 1 = a1 := rfl
  have e2 : Digest.at ⟨_, hl⟩ 2 = a2 := rfl
  have e3 : Digest.at ⟨_, hl⟩ 3 = a3 := rfl
  have e4 : Digest.at ⟨_, hl⟩ 4 = a4 := rfl
  have e5 : Digest.at ⟨_, hl⟩ 5 = a5 := rfl
  have e6 : Digest.at ⟨_, hl⟩ 6 = a6 := rfl
  have e7 : Digest.at ⟨_, hl⟩ 7 = a7 := rfl
  simp only [idOfHash, e0, e1, e2, e3, e4, e5, e6, e7, SetBytes, Uint64, List.foldl_cons,
    List.foldl_nil, List.take_succ_cons, List.take_zero, leValue]
  have := a0.isLt; have := a1.isLt; have := a2.isLt; have := a3.isLt
  have := a4.isLt; have := a5.isLt; have := a6.isLt; have := a7.isLt
  omega

theorem leValue_eight_sum (hash : Digest) :
    leValue (hash.val.take 8) =
      ∑ i : Fin 8, (hash.at (Fin.castLE (by decide) i)).val * 256 ^ i.val := by
  obtain ⟨l, hl⟩ := hash
  obtain ⟨a0, a1, a2, a3, a4, a5, a6, a7, rest, rfl⟩ := exists_eight_cons l (by omega)
  rw [Fin.sum_univ_eight]
  show leValue (List.take 8 (a0 :: a1 :: a2 :: a3 :: a4 :: a5 :: a6 :: a7 :: rest)) =
    a0.val * 256 ^ 0 + a1.val * 256 ^ 1 + a2.val * 256 ^ 2 + a3.val * 256 ^ 3 +
      a4.val * 256 ^ 4 + a5.val * 256 ^ 5 + a6.val * 256 ^ 6 + a7.val * 256 ^ 7
  simp only [List.take_succ_cons, List.take_zero, leValue]
  norm_num
  omega

theorem insert_before_tail (pre ats sig : List Byte) (hs : sig.length = 64) :
    pre ++ ats ++ sig =
      (pre ++ [] ++ sig).take ((pre ++ [] ++ sig).length - 64) ++ ats ++
        (pre ++ [] ++ sig).drop ((pre ++ [] ++ sig).length - 64) := by
  have hl : (pre ++ [] ++ sig).length - 64 = pre.length := by
    simp only [List.append_nil, List.length_append, hs]
    omega
  rw [hl, List.append_nil, List.take_left, List.drop_left]

/-- A little-endian representation determines a value below `256 ^ k`. -/
theorem leBytes_inj (k n m : Nat) (hn : n < 256 ^ k) (hm : m < 256 ^ k)
    (h : leBytes k n = leBytes k m) : n = m := by
  have hv := congrArg leValue h
  rwa [leValue_leBytes, leValue_leBytes, Nat.mod_eq_of_lt hn, Nat.mod_eq_of_lt hm] at hv

theorem leBytesInt_four_inj (v w : Int) (hv : -2147483648 ≤ v ∧ v < 2147483648)
    (hw : -2147483648 ≤ w ∧ w < 2147483648) (h : leBytesInt 4 v = leBytesInt 4 w) : v = w := by
  unfold leBytesInt at h
  have h2 := leBytes_inj 4 _ _ (by norm_num; omega) (by norm_num; omega) h
  norm_num at h2
  omega

theorem leBytesInt_eight_inj (v w : Int)
    (hv : -9223372036854775808 ≤ v ∧ v < 9223372036854775808)
    (hw : -9223372036854775808 ≤ w ∧ w < 9223372036854775808)
    (h : leBytesInt 8 v = leBytesInt 8 w) : v = w := by
  unfold leBytesInt at h
  have h2 := leBytes_inj 8 _ _ (by norm_num; omega) (by norm_num; omega) h
  norm_num at h2
  omega

/-- A non-empty byte slice is determined by the bytes it holds. -/
theorem HexSlice.eq_of_bytes_eq (s t : HexSlice) (n : Nat) (hs : s.len = n + 1)
    (ht : t.len = n + 1) (h : s.bytes = t.bytes) : s = t := by
  cases s with
  | none => simp [HexSlice.len, HexSlice.bytes] at hs
  | some x =>
    cases t with
    | none => simp [HexSlice.len, HexSlice.bytes] at ht
    | some y => simpa [HexSlice.bytes] using h

/-! ## The claims -/

/-- C1: for every block whose fixed-size fields have their declared widths, `ToBytes`
succeeds and returns exactly the concatenation the specification lists: version (4 bytes
LE), timestamp (4), previous block (8), transaction count (4), the two amounts (narrowed to
4 bytes each when `Version < 3`, 8 bytes each otherwise), payload length (4), payload hash,
generator public key, generation signature, previous block hash only if `Version > 1`,
nonce (8), the `BlockATs` bytes with no length prefix, and the block signature. -/
theorem ToBytes_layout {Tx : Type} (b : Block Tx) (hw : b.WellSized) :
    ToBytes b = .ok (specLayout b) := by
  rw [ToBytes_eq_wireBytes, wireBytes_eq_specLayout]

/-- Witness for C1 on a well-sized version-3 block. -/
theorem ToBytes_layout_witness :
    blockV3.WellSized ∧ ToBytes blockV3 = .ok (specLayout blockV3) :=
  ⟨by decide, ToBytes_layout blockV3 (by decide)⟩

/-- C2 (the code departs from it): a version-3 block whose `PayloadHash` is 31 bytes long is
not well-sized and has every integer field in range, yet `ToBytes` returns no error but a
242-byte buffer, one byte short of the 243 that `bsCap` computes for it. -/
theorem ToBytes_blockShortHash :
    ¬ blockShortHash.WellSized ∧ blockShortHash.InRange ∧ bsCap blockShortHash = 243 ∧
      (∃ bs, ToBytes blockShortHash = .ok bs ∧ bs.length = 242) ∧
      ∀ err, ToBytes blockShortHash ≠ .error err := by
  refine ⟨by decide, by decide, by decide, ⟨wireBytes blockShortHash,
    ToBytes_eq_wireBytes blockShortHash, ?_⟩, ?_⟩
  · rw [wireBytes_length]
    simp [blockShortHash, blockV3, filled, HexSlice.len, HexSlice.bytes]
  · intro err h
    rw [ToBytes_eq_wireBytes] at h
    exact absurd h (by simp)

/-- C3: for every block with `Version < 3`, the 4 bytes `ToBytes` writes at offset 20 are the
little-endian two's-complement encoding of `truncate_to_int32(TotalAmountNQT / 100000000)`
(quotient rounded toward zero, low 32 bits kept), and the 4 bytes at offset 24 are the same
function of `TotalFeeNQT`; read back as a signed integer they give that value, which is the
plain quotient whenever the quotient fits in an `int32`.  In particular an amount of
250000000 encodes 2 and an amount of -150000000 encodes -1. -/
theorem ToBytes_legacy_amounts {Tx : Type} (b : Block Tx) (hv : b.Version < 3) :
    ∃ out, ToBytes b = .ok out ∧
      slice out 20 4 = leBytesInt 4 (narrowAmount b.TotalAmountNQT) ∧
      slice out 24 4 = leBytesInt 4 (narrowAmount b.TotalFeeNQT) ∧
      leValueInt 4 (slice out 20 4) = narrowAmount b.TotalAmountNQT ∧
      leValueInt 4 (slice out 24 4) = narrowAmount b.TotalFeeNQT ∧
      (-2147483648 ≤ quotTowardZero b.TotalAmountNQT 100000000 ∧
          quotTowardZero b.TotalAmountNQT 100000000 < 2147483648 →
        leValueInt 4 (slice out 20 4) = quotTowardZero b.TotalAmountNQT 100000000) ∧
      (b.TotalAmountNQT = 250000000 →
        leValueInt 4 (slice out 20 4) = 2 ∧ slice out 20 4 = [2, 0, 0, 0]) ∧
      (b.TotalAmountNQT = -150000000 →
        leValueInt 4 (slice out 20 4) = -1 ∧ slice out 20 4 = [255, 255, 255, 255]) := by
  obtain ⟨rest, hrest⟩ := specLayout_legacy b hv
  have hA : slice (specLayout b) 20 4 = leBytesInt 4 (narrowAmount b.TotalAmountNQT) := by
    rw [hrest]
    exact slice_append _ _ _ 20 4
      (by simp only [List.length_append, leBytes_length, leBytesInt_length])
      (leBytesInt_length 4 _)
  have hF : slice (specLayout b) 24 4 = leBytesInt 4 (narrowAmount b.TotalFeeNQT) := by
    rw [hrest, ← List.append_assoc]
    exact slice_append _ _ _ 24 4
      (by simp only [List.length_append, leBytes_length, leBytesInt_length])
      (leBytesInt_length 4 _)
  have hdec : ∀ x : Int, leValueInt 4 (leBytesInt 4 (narrowAmount x)) = narrowAmount x := by
    intro x
    rw [leValueInt_leBytesInt]
    exact wrapInt32_wrapInt32 _
  refine ⟨specLayout b, ToBytes_eq b, hA, hF, ?_, ?_, ?_, ?_, ?_⟩
  · rw [hA, hdec]
  · rw [hF, hdec]
  · intro hq
    rw [hA, hdec]
    exact wrapInt32_of_inRange _ hq
  · intro h
    rw [hA, hdec, h]
    exact ⟨by decide, by decide⟩
  · intro h
    rw [hA, hdec, h]
    exact ⟨by decide, by decide⟩

/-- Witness for C3 on a version-2 block whose amount is -150000000. -/
theorem ToBytes_legacy_amounts_witness :
    blockV2.Version < 3 ∧ blockV2.TotalAmountNQT = -150000000 ∧
      ∃ out, ToBytes blockV2 = .ok out ∧ leValueInt 4 (slice out 20 4) = -1 ∧
        leValueInt 4 (slice out 24 4) = 2 :=
  ⟨by decide, rfl, by
    obtain ⟨out, h, _, _, _, hfee, _, _, hneg⟩ := ToBytes_legacy_amounts blockV2 (by decide)
    exact ⟨out, h, (hneg rfl).1, by rw [hfee]; decide⟩⟩

/-- C4: for every block whose fixed-size fields have their declared widths, the output of
`ToBytes` is the 20-byte header, the amount/fee region, 100 bytes of payload length and
hashes, the previous-block-hash region, and the tail; the amount/fee region is exactly 8
bytes when `Version < 3` and 16 bytes when `Version >= 3`, the 32-byte previous-block-hash
region is present if and only if `Version > 1`, and the total length is
`200 + len(BlockATs)` for `Version <= 1`, `232 + len(BlockATs)` for `Version = 2` and
`240 + len(BlockATs)` for `Version >= 3`. -/
theorem ToBytes_version_gating {Tx : Type} (b : Block Tx) (hw : b.WellSized) :
    ∃ out, ToBytes b = .ok out ∧
      out = (leBytesInt 4 b.Version ++ leBytes 4 b.Timestamp ++ leBytes 8 b.PreviousBlock ++
              leBytes 4 b.Transactions.length) ++ amountFeeRegion b ++
            (leBytes 4 b.PayloadLength ++ b.PayloadHash.bytes ++ b.GeneratorPublicKey.bytes ++
              b.GenerationSignature.bytes) ++ prevHashRegion b ++
            (leBytes 8 b.Nonce ++ b.BlockATs.bytes ++ b.BlockSignature.bytes) ∧
      (b.Version < 3 → (amountFeeRegion b).length = 8) ∧
      (b.Version ≥ 3 → (amountFeeRegion b).length = 16) ∧
      ((prevHashRegion b).length = 32 ↔ b.Version > 1) ∧
      (b.Version > 1 → prevHashRegion b = b.PreviousBlockHash.bytes) ∧
      (¬ b.Version > 1 → prevHashRegion b = []) ∧
      (b.Version ≤ 1 → out.length = 200 + b.BlockATs.len) ∧
      (b.Version = 2 → out.length = 232 + b.BlockATs.len) ∧
      (b.Version ≥ 3 → out.length = 240 + b.BlockATs.len) := by
  obtain ⟨h1, h2, h3, h4, h5⟩ := hw
  have hlen := specLayout_length b
  rw [h1, h2, h3, h5] at hlen
  refine ⟨specLayout b, ToBytes_eq b, ?_, ?_, ?_, ?_, ?_, ?_, ?_, ?_, ?_⟩
  · simp only [specLayout, amountFeeRegion, prevHashRegion, List.append_assoc]
  · intro h
    simp only [amountFeeRegion, if_pos h, List.length_append, leBytesInt_length]
  · intro h
    simp only [amountFeeRegion, if_neg (not_lt.mpr h), List.length_append, leBytesInt_length]
  · unfold prevHashRegion
    constructor
    · intro h
      by_contra hn
      rw [if_neg hn] at h
      simp at h
    · intro h
      rw [if_pos h]
      exact h4 h
  · intro h
    simp only [prevHashRegion, if_pos h]
  · intro h
    simp only [prevHashRegion, if_neg h]
  · intro h
    rw [hlen, if_pos (by omega), if_neg (by omega)]
    omega
  · intro h
    rw [hlen, if_pos (by omega), if_pos (by omega), h4 (by omega)]
    omega
  · intro h
    rw [hlen, if_neg (by omega), if_pos (by omega), h4 (by omega)]
    omega

/-- Witness for C4 on well-sized blocks of versions 1, 2 and 3, each carrying three bytes of
`BlockATs`. -/
theorem ToBytes_version_gating_witness :
    blockV1.WellSized ∧ (∃ out, ToBytes blockV1 = .ok out ∧ out.length = 203) ∧
      (∃ out, ToBytes blockV2 = .ok out ∧ out.length = 235) ∧
      (∃ out, ToBytes blockV3 = .ok out ∧ out.length = 243) :=
  ⟨by decide,
    (ToBytes_version_gating blockV1 (by decide)).imp
      (fun _ h => ⟨h.1, h.2.2.2.2.2.2.2.1 (by decide)⟩),
    (ToBytes_version_gating blockV2 (by decide)).imp
      (fun _ h => ⟨h.1, h.2.2.2.2.2.2.2.2.1 (by decide)⟩),
    (ToBytes_version_gating blockV3 (by decide)).imp
      (fun _ h => ⟨h.1, h.2.2.2.2.2.2.2.2.2 (by decide)⟩)⟩

/-- C5: for every 32-byte digest, the ID derivation performed by `CalculateID` (bytes
7,6,...,0 read big-endian, low 64 bits) equals the digest's first 8 bytes read as a
little-endian unsigned 64-bit integer, that is the sum over `i` in `0..7` of
`digest[i] * 256^i`; bytes 8..31 of the digest have no influence, and `CalculateID` returns
exactly this value on the digest `CalculateHash` returns. -/
theorem CalculateID_littleEndian {Tx : Type} (sha256 : List Byte → Digest) (b : Block Tx)
    (hash : Digest) :
    idOfHash hash = specDeriveID hash ∧
      idOfHash hash = ∑ i : Fin 8, (hash.at (Fin.castLE (by decide) i)).val * 256 ^ i.val ∧
      idOfHash hash < 2 ^ 64 ∧
      (∀ other : Digest, other.val.take 8 = hash.val.take 8 → idOfHash other = idOfHash hash) ∧
      CalculateID sha256 b =
        (match CalculateHash sha256 b with
          | .ok h => (specDeriveID h, none)
          | .error err => (0, some err)) := by
  refine ⟨idOfHash_eq_leValue hash, ?_, ?_, ?_, ?_⟩
  · rw [idOfHash_eq_leValue, leValue_eight_sum]
  · exact Nat.mod_lt _ (by decide)
  · intro other h
    rw [idOfHash_eq_leValue, idOfHash_eq_leValue, h]
  · unfold CalculateID
    cases CalculateHash sha256 b with
    | ok h => simp only [idOfHash_eq_leValue, specDeriveID]
    | error err => rfl

/-- Witness for C5: two digests that share their first 8 bytes and differ in all the others
get the same ID. -/
theorem CalculateID_littleEndian_witness :
    seqDigestFF.val.take 8 = seqDigest.val.take 8 ∧ seqDigestFF ≠ seqDigest ∧
      idOfHash seqDigestFF = idOfHash seqDigest :=
  ⟨by decide, by decide,
    (CalculateID_littleEndian (fun _ => seqDigest) blockV3 seqDigest).2.2.2.1 seqDigestFF
      (by decide)⟩

/-- C6 as stated fails: for the digest `0x00 .. 0x1F` neither the ID derivation of
`CalculateID` nor the bytes `07 06 05 04 03 02 01 00` read big-endian give
`0x0001020304050607`. -/
theorem CalculateID_seqDigest_counterexample :
    idOfHash seqDigest ≠ 0x0001020304050607 ∧
      SetBytes [7, 6, 5, 4, 3, 2, 1, 0] ≠ 0x0001020304050607 :=
  ⟨by decide, by decide⟩

/-- C6 (amended): for the digest made of the 32 sequential bytes `0x00 .. 0x1F`, the ID
derivation of `CalculateID` yields the integer formed by the bytes `07 06 05 04 03 02 01 00`
read big-endian, and that integer is `0x0706050403020100` (the first 8 digest bytes read
little-endian); `CalculateID` returns it, with no error, whenever the hash of the block is
that digest. -/
theorem CalculateID_seqDigest :
    idOfHash seqDigest = SetBytes [7, 6, 5, 4, 3, 2, 1, 0] ∧
      SetBytes [7, 6, 5, 4, 3, 2, 1, 0] = 0x0706050403020100 ∧
      idOfHash seqDigest = 0x0706050403020100 ∧
      specDeriveID seqDigest = 0x0706050403020100 ∧
      ∀ (Tx : Type) (b : Block Tx),
        CalculateID (fun _ => seqDigest) b = (0x0706050403020100, none) := by
  refine ⟨by decide, by decide, by decide, by decide, ?_⟩
  intro Tx b
  simp only [CalculateID, CalculateHash, ToBytes_eq]
  decide

/-- C8: for every block, whatever its validity flag before the call, after `Validate`
returns `IsValid()` is true if and only if `Version` was 3 at the time of the call;
`IsValid()` only reads the flag (it returns the stored flag and leaves the block as it is),
so it keeps returning the outcome of the last `Validate` even if `Version` is changed
afterwards. -/
theorem IsValid_after_Validate {Tx : Type} (marshal : Block Tx → Except String String)
    (b : Block Tx) (previous : Option (Block Tx)) (flag : Bool) (v : Int) :
    ((IsValid (Validate marshal { b with isValid := flag } previous).2).1 = true ↔
        b.Version = 3) ∧
      (∀ c : Block Tx, IsValid c = (c.isValid, c)) ∧
      ((IsValid { (Validate marshal { b with isValid := flag } previous).2 with
            Version := v }).1 = true ↔ b.Version = 3) ∧
      (IsValid (IsValid (Validate marshal { b with isValid := flag } previous).2).2).1 =
        (IsValid (Validate marshal { b with isValid := flag } previous).2).1 := by
  refine ⟨?_, fun _ => rfl, ?_, rfl⟩
  · by_cases h : b.Version = 3
    · simp [Validate, IsValid, h]
    · cases hm : marshal { b with isValid := false } <;>
        simp [Validate, toError, IsValid, h, hm]
  · by_cases h : b.Version = 3
    · simp [Validate, IsValid, h]
    · cases hm : marshal { b with isValid := false } <;>
        simp [Validate, toError, IsValid, h, hm]

/-- C9: for every block, `ToBytes` with an empty non-nil `BlockATs` equals `ToBytes` with
`BlockATs` nil; and for every block whose fixed-size fields have their declared widths,
`ToBytes(b)` is `ToBytes` of the block with `BlockATs` absent with the `BlockATs` bytes
inserted immediately before its final 64 bytes, so the other fields keep their content
and the length grows by exactly `len(BlockATs)`. -/
theorem ToBytes_blockATs {Tx : Type} (b : Block Tx) :
    ToBytes { b with BlockATs := some [] } = ToBytes { b with BlockATs := none } ∧
      (b.WellSized →
        ∃ base out, ToBytes { b with BlockATs := none } = .ok base ∧ ToBytes b = .ok out ∧
          out = base.take (base.length - 64) ++ b.BlockATs.bytes ++
            base.drop (base.length - 64) ∧
          base.drop (base.length - 64) = b.BlockSignature.bytes ∧
          out.length = base.length + b.BlockATs.len) := by
  refine ⟨?_, ?_⟩
  · rw [ToBytes_eq, ToBytes_eq]
    rfl
  · intro hw
    have hs : b.BlockSignature.bytes.length = 64 := hw.2.2.2.2
    refine ⟨specLayout { b with BlockATs := none }, specLayout b, ToBytes_eq _, ToBytes_eq _,
      ?_, ?_, ?_⟩
    · exact insert_before_tail _ _ _ hs
    · have hl : (specLayout { b with BlockATs := none }).length - 64 =
          (specLayout { b with BlockATs := none }).length - b.BlockSignature.bytes.length := by
        rw [hs]
      rw [hl]
      simp only [specLayout, HexSlice.bytes, List.append_nil, List.length_append,
        Nat.add_sub_cancel, List.drop_left']
    · rw [specLayout_length, specLayout_length]
      simp only [HexSlice.len, HexSlice.bytes, List.length_nil]
      omega

/-- Witness for C9 on a well-sized version-3 block carrying three bytes of `BlockATs`. -/
theorem ToBytes_blockATs_witness :
    blockV3.WellSized ∧ blockV3.BlockATs.bytes = [1, 2, 3] ∧
      ∃ base out, ToBytes { blockV3 with BlockATs := none } = .ok base ∧
        ToBytes blockV3 = .ok out ∧ out.length = base.length + 3 :=
  ⟨by decide, by decide, by
    obtain ⟨base, out, h1, h2, _, _, h5⟩ := (ToBytes_blockATs blockV3).2 (by decide)
    exact ⟨base, out, h1, h2, h5⟩⟩

/-- C10: `ToBytes` depends on the wire fields only: two blocks that agree on version,
timestamp, previous block, number of transactions, both amounts, payload length, payload
hash, generator public key, generation signature, previous block hash, nonce, `BlockATs`
and block signature produce identical results, whatever their height, validity flag, block
id and the transactions themselves. -/
theorem ToBytes_wire_fields_only {Tx : Type} (b1 b2 : Block Tx)
    (hVersion : b1.Version = b2.Version) (hTimestamp : b1.Timestamp = b2.Timestamp)
    (hPreviousBlock : b1.PreviousBlock = b2.PreviousBlock)
    (hCount : b1.Transactions.length = b2.Transactions.length)
    (hAmount : b1.TotalAmountNQT = b2.TotalAmountNQT) (hFee : b1.TotalFeeNQT = b2.TotalFeeNQT)
    (hPayloadLength : b1.PayloadLength = b2.PayloadLength)
    (hPayloadHash : b1.PayloadHash = b2.PayloadHash)
    (hGeneratorPublicKey : b1.GeneratorPublicKey = b2.GeneratorPublicKey)
    (hGenerationSignature : b1.GenerationSignature = b2.GenerationSignature)
    (hPreviousBlockHash : b1.PreviousBlockHash = b2.PreviousBlockHash)
    (hNonce : b1.Nonce = b2.Nonce) (hBlockATs : b1.BlockATs = b2.BlockATs)
    (hBlockSignature : b1.BlockSignature = b2.BlockSignature) :
    ToBytes b1 = ToBytes b2 := by
  unfold ToBytes
  rw [hVersion, hTimestamp, hPreviousBlock, hCount, hAmount, hFee, hPayloadLength,
    hPayloadHash, hGeneratorPublicKey, hGenerationSignature, hPreviousBlockHash, hNonce,
    hBlockATs, hBlockSignature]

/-- Witness for C10: two blocks with the same wire fields and different height, block id,
validity flag and transactions. -/
theorem ToBytes_wire_fields_only_witness :
    blockV3.Height ≠ blockV3Other.Height ∧ blockV3.Block ≠ blockV3Other.Block ∧
      blockV3.isValid ≠ blockV3Other.isValid ∧
      blockV3.Transactions ≠ blockV3Other.Transactions ∧
      ToBytes blockV3 = ToBytes blockV3Other :=
  ⟨by decide, by decide, by decide, by decide,
    ToBytes_wire_fields_only blockV3 blockV3Other rfl rfl rfl rfl rfl rfl rfl rfl rfl rfl rfl
      rfl rfl rfl⟩

/-- C11: `CalculateHash` fails exactly when `ToBytes` fails, with that same error, and
otherwise returns the digest of the bytes `ToBytes` returns; `CalculateID` fails exactly
when `CalculateHash` fails, returning that same error with the value 0, and otherwise the ID
derived from the digest.  Consequently two blocks with equal `ToBytes` output have equal
hashes and equal IDs. -/
theorem CalculateHash_CalculateID_propagation {Tx : Type} (sha256 : List Byte → Digest)
    (b b2 : Block Tx) :
    (∀ err, CalculateHash sha256 b = .error err ↔ ToBytes b = .error err) ∧
      (∀ hash, CalculateHash sha256 b = .ok hash ↔
        ∃ bs, ToBytes b = .ok bs ∧ hash = sha256 bs) ∧
      (∀ err, CalculateID sha256 b = (0, some err) ↔ CalculateHash sha256 b = .error err) ∧
      (∀ err, (CalculateID sha256 b).2 = some err ↔ CalculateHash sha256 b = .error err) ∧
      (∀ id, CalculateID sha256 b = (id, none) ↔
        ∃ hash, CalculateHash sha256 b = .ok hash ∧ id = idOfHash hash) ∧
      (ToBytes b = ToBytes b2 →
        CalculateHash sha256 b = CalculateHash sha256 b2 ∧
          CalculateID sha256 b = CalculateID sha256 b2) := by
  refine ⟨?_, ?_, ?_, ?_, ?_, ?_⟩
  · intro err
    unfold CalculateHash
    cases ToBytes b <;> simp
  · intro hash
    unfold CalculateHash
    cases ToBytes b <;> simp [eq_comm]
  · intro err
    unfold CalculateID
    cases CalculateHash sha256 b <;> simp [eq_comm]
  · intro err
    unfold CalculateID
    cases CalculateHash sha256 b <;> simp [eq_comm]
  · intro id
    unfold CalculateID
    cases CalculateHash sha256 b <;> simp [eq_comm]
  · intro h
    unfold CalculateID CalculateHash
    rw [h]
    exact ⟨rfl, rfl⟩

/-- Witness for C11: two blocks with equal `ToBytes` output and different unencoded fields
have the same hash and the same ID. -/
theorem CalculateHash_CalculateID_propagation_witness :
    ToBytes blockV3 = ToBytes blockV3Other ∧ blockV3.Height ≠ blockV3Other.Height ∧
      CalculateHash truncDigest blockV3 = CalculateHash truncDigest blockV3Other ∧
      CalculateID truncDigest blockV3 = CalculateID truncDigest blockV3Other :=
  ⟨by rw [ToBytes_eq, ToBytes_eq]; rfl, by decide,
    (CalculateHash_CalculateID_propagation truncDigest blockV3 blockV3Other).2.2.2.2.2
      (by rw [ToBytes_eq, ToBytes_eq]; rfl)⟩

/-- C12: for every block whose fixed-size fields have their declared widths, no error branch
of `ToBytes` is reachable: every `binary.Write` succeeds, and `ToBytes`, `CalculateHash` and
`CalculateID` all return success. -/
theorem ToBytes_no_error_reachable {Tx : Type} (sha256 : List Byte → Digest) (b : Block Tx)
    (hw : b.WellSized) :
    (∀ (w : List Byte) (data : Data), ∃ w2, binaryWrite w data = .ok w2) ∧
      (∃ bs, ToBytes b = .ok bs) ∧
      (∃ hash, CalculateHash sha256 b = .ok hash) ∧
      (∃ id, CalculateID sha256 b = (id, none)) ∧
      ∀ err, ToBytes b ≠ .error err ∧ CalculateHash sha256 b ≠ .error err ∧
        (CalculateID sha256 b).2 ≠ some err := by
  have hb : ToBytes b = .ok (specLayout b) := ToBytes_eq b
  have hh : CalculateHash sha256 b = .ok (sha256 (specLayout b)) := by
    simp only [CalculateHash, hb]
  have hi : CalculateID sha256 b = (idOfHash (sha256 (specLayout b)), none) := by
    simp only [CalculateID, hh]
  refine ⟨?_, ⟨_, hb⟩, ⟨_, hh⟩, ⟨_, hi⟩, ?_⟩
  · intro w data
    cases data <;> exact ⟨_, rfl⟩
  · intro err
    rw [hb, hh, hi]
    simp

/-- Witness for C12 on a well-sized version-1 block. -/
theorem ToBytes_no_error_reachable_witness :
    blockV1.WellSized ∧ (∃ bs, ToBytes blockV1 = .ok bs) ∧
      (∃ hash, CalculateHash truncDigest blockV1 = .ok hash) ∧
      ∃ id, CalculateID truncDigest blockV1 = (id, none) :=
  ⟨by decide, (ToBytes_no_error_reachable truncDigest blockV1 (by decide)).2.1,
    (ToBytes_no_error_reachable truncDigest blockV1 (by decide)).2.2.1,
    (ToBytes_no_error_reachable truncDigest blockV1 (by decide)).2.2.2.1⟩

/-- C13: on both the accepting and the rejecting path, `Validate` changes no field of the
target block other than `isValid`, and it changes nothing in the previous block: a previous
block other than the target is left as it was, as is every other block, and in no case does
any field but `isValid` change.  Consequently `ToBytes`, `CalculateHash` and `CalculateID`
return the same results after a `Validate` call as before it. -/
theorem ValidateCall_frame {Tx : Type} (marshal : Block Tx → Except String String)
    (sha256 : List Byte → Digest) (store : Nat → Block Tx) (b : Nat)
    (previous : Option Nat) :
    (ValidateCall marshal store b previous).2 b =
        { store b with isValid := decide ((store b).Version = 3) } ∧
      (Validate marshal (store b) (previous.map store)).2 =
        { store b with isValid := decide ((store b).Version = 3) } ∧
      (∀ a, a ≠ b → (ValidateCall marshal store b previous).2 a = store a) ∧
      (∀ p, previous = some p → p ≠ b →
        (ValidateCall marshal store b previous).2 p = store p) ∧
      (∀ a, { (ValidateCall marshal store b previous).2 a with
          isValid := (store a).isValid } = store a) ∧
      ∀ a, ToBytes ((ValidateCall marshal store b previous).2 a) = ToBytes (store a) ∧
        CalculateHash sha256 ((ValidateCall marshal store b previous).2 a) =
          CalculateHash sha256 (store a) ∧
        CalculateID sha256 ((ValidateCall marshal store b previous).2 a) =
          CalculateID sha256 (store a) := by
  have hv : (Validate marshal (store b) (previous.map store)).2 =
      { store b with isValid := decide ((store b).Version = 3) } := by
    by_cases h : (store b).Version = 3
    · simp [Validate, h]
    · cases hm : marshal { store b with isValid := false } <;>
        simp [Validate, toError, h, hm]
  have hb : (ValidateCall marshal store b previous).2 b =
      { store b with isValid := decide ((store b).Version = 3) } := by
    rw [← hv]
    simp [ValidateCall]
  have hne : ∀ a, a ≠ b → (ValidateCall marshal store b previous).2 a = store a := by
    intro a ha
    simp [ValidateCall, ha]
  have hbytes : ∀ a, ToBytes ((ValidateCall marshal store b previous).2 a) =
      ToBytes (store a) := by
    intro a
    by_cases ha : a = b
    · subst ha
      rw [hb]
      rfl
    · rw [hne a ha]
  refine ⟨hb, hv, hne, fun p _ hp => hne p hp, ?_, fun a => ⟨hbytes a, ?_, ?_⟩⟩
  · intro a
    by_cases ha : a = b
    · subst ha
      rw [hb]
    · rw [hne a ha]
  · simp only [CalculateHash, hbytes a]
  · simp only [CalculateID, CalculateHash, hbytes a]

/-- Witness for C13: validating the version-1 block at address 0 against the block at
address 1 leaves the latter as it was. -/
theorem ValidateCall_frame_witness :
    (1 : Nat) ≠ 0 ∧ (ValidateCall marshalSnapshot sampleStore 0 (some 1)).2 1 = sampleStore 1 :=
  ⟨by decide,
    (ValidateCall_frame marshalSnapshot truncDigest sampleStore 0 (some 1)).2.2.2.1 1 rfl
      (by decide)⟩

/-- C14: `Validate` ignores its previous-block argument: for every block and any two
previous blocks (an absent one included), the two calls return the same error and leave the
block in the same state; seen from the caller, they leave the whole store in the same
state. -/
theorem Validate_ignores_previous {Tx : Type} (marshal : Block Tx → Except String String)
    (b : Block Tx) (p1 p2 : Option (Block Tx)) (store : Nat → Block Tx) (a : Nat)
    (q1 q2 : Option Nat) :
    Validate marshal b p1 = Validate marshal b p2 ∧
      Validate marshal b p1 = Validate marshal b none ∧
      ValidateCall marshal store a q1 = ValidateCall marshal store a q2 := by
  refine ⟨?_, ?_, ?_⟩
  · unfold Validate
    rfl
  · unfold Validate
    rfl
  · unfold ValidateCall Validate
    rfl

/-- C16: on rejection (`Version != 3`), when the JSON snapshot of the block can be produced
as the text `v`, the error `Validate` returns has exactly the message
`invalid block version << ` followed by `v`, where `v` is the snapshot of the block taken
after its validity flag has been cleared. -/
theorem Validate_rejection_message {Tx : Type} (marshal : Block Tx → Except String String)
    (b : Block Tx) (previous : Option (Block Tx)) (v : String) (hv : b.Version ≠ 3)
    (hm : marshal { b with isValid := false } = .ok v) :
    (Validate marshal b previous).1 = some ("invalid block version << " ++ v) ∧
      (Validate marshal b previous).2 = { b with isValid := false } := by
  have hs : "invalid block version" ++ " << " = "invalid block version << " := by decide
  refine ⟨?_, ?_⟩
  · simp only [Validate, toError, hv, hm, ne_eq, not_false_eq_true, if_true, hs]
  · simp only [Validate, toError, hv, hm, ne_eq, not_false_eq_true, if_true]

/-- Witness for C16: a version-1 block whose flag was set is rejected, and the message
carries the snapshot of the block with the flag cleared. -/
theorem Validate_rejection_message_witness :
    marshalSnapshot { blockV1 with isValid := true } = .ok "valid block" ∧
      (Validate marshalSnapshot { blockV1 with isValid := true } none).1 =
        some "invalid block version << invalid block" :=
  ⟨rfl,
    (Validate_rejection_message marshalSnapshot { blockV1 with isValid := true } none
      "invalid block" (by decide) rfl).1⟩

/-- C17: `ToBytes` is injective on well-formed current-format blocks: two blocks whose
fixed-size fields have their declared widths, whose integer fields are in the range of their
Go types, whose `Version` is at least 3 and whose transaction counts are below `2^32`, and
that have the same `ToBytes` output, agree on version, timestamp, previous block,
transaction count, both amounts, payload length, payload hash, generator public key,
generation signature, previous block hash, nonce, the `BlockATs` bytes (absent counted as
empty) and block signature, although `BlockATs` has no length prefix. -/
theorem ToBytes_injective {Tx : Type} (b1 b2 : Block Tx)
    (hw1 : b1.WellSized) (hw2 : b2.WellSized) (hr1 : b1.InRange) (hr2 : b2.InRange)
    (hv1 : b1.Version ≥ 3) (hv2 : b2.Version ≥ 3)
    (hc1 : b1.Transactions.length < 4294967296) (hc2 : b2.Transactions.length < 4294967296)
    (h : ToBytes b1 = ToBytes b2) :
    b1.Version = b2.Version ∧ b1.Timestamp = b2.Timestamp ∧
      b1.PreviousBlock = b2.PreviousBlock ∧
      b1.Transactions.length = b2.Transactions.length ∧
      b1.TotalAmountNQT = b2.TotalAmountNQT ∧ b1.TotalFeeNQT = b2.TotalFeeNQT ∧
      b1.PayloadLength = b2.PayloadLength ∧ b1.PayloadHash = b2.PayloadHash ∧
      b1.GeneratorPublicKey = b2.GeneratorPublicKey ∧
      b1.GenerationSignature = b2.GenerationSignature ∧
      b1.PreviousBlockHash = b2.PreviousBlockHash ∧ b1.Nonce = b2.Nonce ∧
      b1.BlockATs.bytes = b2.BlockATs.bytes ∧ b1.BlockSignature = b2.BlockSignature := by
  obtain ⟨p1, g1, s1, q1, z1⟩ := hw1
  obtain ⟨p2, g2, s2, q2, z2⟩ := hw2
  have q1 := q1 (by omega)
  have q2 := q2 (by omega)
  obtain ⟨rPL1, rA1, rV1, rN1, rF1, rPB1, rT1, -, -⟩ := hr1
  obtain ⟨rPL2, rA2, rV2, rN2, rF2, rPB2, rT2, -, -⟩ := hr2
  rw [ToBytes_eq, ToBytes_eq] at h
  have h := Except.ok.inj h
  simp only [specLayout, if_neg (not_lt.mpr hv1), if_neg (not_lt.mpr hv2),
    if_pos (show b1.Version > 1 by omega), if_pos (show b2.Version > 1 by omega)] at h
  simp only [HexSlice.len] at p1 p2 g1 g2 s1 s2 q1 q2 z1 z2
  -- the 64-byte signature is the tail
  obtain ⟨h, eSig⟩ := List.append_inj' h (by rw [z1, z2])
  -- everything before `BlockATs` has a fixed length
  obtain ⟨h, eATs⟩ := List.append_inj h (by
    simp only [List.length_append, leBytes_length, leBytesInt_length, p1, p2, g1, g2, s1, s2,
      q1, q2])
  obtain ⟨h, eNonce⟩ := List.append_inj' h (by simp only [leBytes_length])
  obtain ⟨h, ePBH⟩ := List.append_inj' h (by rw [q1, q2])
  obtain ⟨h, eGS⟩ := List.append_inj' h (by rw [s1, s2])
  obtain ⟨h, eGPK⟩ := List.append_inj' h (by rw [g1, g2])
  obtain ⟨h, ePH⟩ := List.append_inj' h (by rw [p1, p2])
  obtain ⟨h, ePL⟩ := List.append_inj' h (by simp only [leBytes_length])
  obtain ⟨h, eAF⟩ := List.append_inj' h (by
    simp only [List.length_append, leBytesInt_length])
  obtain ⟨eAmt, eFee⟩ := List.append_inj eAF (by simp only [leBytesInt_length])
  obtain ⟨h, eCnt⟩ := List.append_inj' h (by simp only [leBytes_length])
  obtain ⟨h, ePB⟩ := List.append_inj' h (by simp only [leBytes_length])
  obtain ⟨eVer, eTs⟩ := List.append_inj' h (by simp only [leBytes_length])
  refine ⟨leBytesInt_four_inj _ _ rV1 rV2 eVer,
    leBytes_inj 4 _ _ (by norm_num; exact rT1) (by norm_num; exact rT2) eTs,
    leBytes_inj 8 _ _ (by norm_num; exact rPB1) (by norm_num; exact rPB2) ePB,
    leBytes_inj 4 _ _ (by norm_num; exact hc1) (by norm_num; exact hc2) eCnt,
    leBytesInt_eight_inj _ _ rA1 rA2 eAmt, leBytesInt_eight_inj _ _ rF1 rF2 eFee,
    leBytes_inj 4 _ _ (by norm_num; exact rPL1) (by norm_num; exact rPL2) ePL,
    HexSlice.eq_of_bytes_eq _ _ 31 p1 p2 ePH, HexSlice.eq_of_bytes_eq _ _ 31 g1 g2 eGPK,
    HexSlice.eq_of_bytes_eq _ _ 31 s1 s2 eGS, HexSlice.eq_of_bytes_eq _ _ 31 q1 q2 ePBH,
    leBytes_inj 8 _ _ (by norm_num; exact rN1) (by norm_num; exact rN2) eNonce,
    eATs, HexSlice.eq_of_bytes_eq _ _ 63 z1 z2 eSig⟩

/-- Witness for C17 on two version-3 blocks that differ in unencoded fields only. -/
theorem ToBytes_injective_witness :
    blockV3.WellSized ∧ blockV3Other.WellSized ∧ blockV3.InRange ∧ blockV3Other.InRange ∧
      ToBytes blockV3 = ToBytes blockV3Other ∧
      blockV3.BlockATs.bytes = blockV3Other.BlockATs.bytes ∧
      blockV3.BlockSignature = blockV3Other.BlockSignature :=
  ⟨by decide, by decide, by decide, by decide, by rw [ToBytes_eq, ToBytes_eq]; rfl,
    (ToBytes_injective blockV3 blockV3Other (by decide) (by decide) (by decide) (by decide)
      (by decide) (by decide) (by decide) (by decide)
      (by rw [ToBytes_eq, ToBytes_eq]; rfl)).2.2.2.2.2.2.2.2.2.2.2.2⟩

end Aspera
